import Mathlib

/-!
Shallow embedding of the quality-assurance rule engine of
`maya-quality-assurance` (scripts/qualityAssurance), together with proofs of
the specified properties of the engine: the find/fix execution protocol of
`utils/qa.py`, the `ifNoErrorsReturn` decorator of `utils/decorators.py`,
the `UndoContext` of `utils/undo.py`, and the registry/collection functions
of `checks/__init__.py` and `collections/__init__.py`.
-/

namespace MayaQA

/-- An error record stored in a rule's error list.  The Python code stores
either a single node/attribute path (`str`/`unicode`) or a small
tuple/list of such identifiers.  Equality is value based. -/
inductive Err
  | str (s : String)
  | tup (xs : List String)
deriving DecidableEq, Repr

/-- The scene graph, abstracted to the set of node identifiers that
currently exist (what `cmds.objExists` answers about), as an ordered list
of names. -/
abbrev Scene := List String

/-- Embedding of `cmds.objExists(name)`: whether the identifier currently
resolves in the scene graph. -/
def objExists (s : Scene) (n : String) : Bool := s.contains n

/-- The Python exceptions the engine itself can raise:
the two `RuntimeError`s of `QualityAssurance.find` / `QualityAssurance.fix`
(`"{name} doesn't allow for error finding/fixing!"`), and the `ValueError`
of `list.remove(x)` when `x` is not in the list. -/
inductive PyExc
  | runtimeNotFindable (name : String)
  | runtimeNotFixable (name : String)
  | valueErrorRemove
deriving DecidableEq, Repr

/-- Embedding of the `QualityAssurance` base class of `utils/qa.py`.
`findImpl` models an implemented `_find` method (a pure generator over the
scene, per the spec's "pure read" contract for detection); `none` means the
subclass does not implement `_find` (`isFindable` is false).  `fixImpl`
models an implemented `_fix` method: given one error record and the scene it
either succeeds and returns the mutated scene, or raises (`none`). -/
structure QualityAssurance where
  name : String := ""
  urgency : Nat := 2
  categories : List String := []
  messageTemplate : String := ""
  selectable : Bool := false
  onSelected : Bool := false
  errors : List Err := []
  findImpl : Option (Scene → List Err) := none
  fixImpl : Option (Err → Scene → Option Scene) := none

/-- `QualityAssurance.isFindable`: a `_find` method is implemented. -/
def QualityAssurance.isFindable (r : QualityAssurance) : Bool := r.findImpl.isSome

/-- `QualityAssurance.isFixable`: a `_fix` method is implemented. -/
def QualityAssurance.isFixable (r : QualityAssurance) : Bool := r.fixImpl.isSome

/-- `QualityAssurance.isSelectable`: the `_selectable` flag. -/
def QualityAssurance.isSelectable (r : QualityAssurance) : Bool := r.selectable

/-- The loop body of `QualityAssurance.find`:
`for error in self._find(): if error in self.errors: continue;
self.errors.append(error)`, starting from the given accumulated list. -/
def findLoop (errs : List Err) : List Err → List Err
  | [] => errs
  | e :: rest => if e ∈ errs then findLoop errs rest else findLoop (errs ++ [e]) rest

/-- Embedding of `QualityAssurance.find`: raises a `RuntimeError` when the
rule is not findable, otherwise resets the error list to `[]` and appends
every yielded error that is not already in the list. -/
def QualityAssurance.find (r : QualityAssurance) (s : Scene) :
    Except PyExc QualityAssurance :=
  match r.findImpl with
  | none => .error (PyExc.runtimeNotFindable r.name)
  | some f => .ok { r with errors := findLoop [] (f s) }

/-- Observable events of one `fix()` call: the undo chunk being opened and
closed (`cmds.undoInfo(openChunk=True)` / `closeChunk=True`), a call of the
`_fix` method on one error record, the silent removal of a stale error, and
the `traceback.print_exc()` logging of a caught remediation failure. -/
inductive Event
  | openChunk
  | closeChunk
  | fixCall (e : Err)
  | staleDrop (e : Err)
  | faultLogged (e : Err)
deriving DecidableEq, Repr

/-- Full outcome of one `fix()` call: the final error list, the final scene,
the ordered event trace, and the exception that propagated out of the call
(if any). -/
structure FixOutcome where
  errors : List Err
  scene : Scene
  trace : List Event
  exc : Option PyExc
deriving DecidableEq, Repr

/-- The parenthesised part of the stale test in `QualityAssurance.fix`:
`type(error) in [str, unicode] and not cmds.objExists(error)`.  Only a
single string identifier can test stale; a tuple/list record never does. -/
def staleString (s : Scene) : Err → Bool
  | .str n => !(objExists s n)
  | .tup _ => false

/-- The `for error in self.errors[:]` loop of `QualityAssurance.fix`.
Arguments: the `_fix` implementation, the `_selectable` flag, the snapshot
still to process, the live error list, and the current scene.  The stale
branch removes the error from the live list (`list.remove` raises
`ValueError` when the value is absent, which propagates); the fix branch
calls `_fix` inside `try`, removing the error on success and logging the
fault (error kept) on failure. -/
def fixLoop (g : Err → Scene → Option Scene) (sel : Bool) :
    List Err → List Err → Scene → FixOutcome
  | [], errs, s => ⟨errs, s, [], none⟩
  | e :: rest, errs, s =>
    if sel && staleString s e then
      if e ∈ errs then
        let o := fixLoop g sel rest (errs.erase e) s
        { o with trace := Event.staleDrop e :: o.trace }
      else
        ⟨errs, s, [], some PyExc.valueErrorRemove⟩
    else
      match g e s with
      | some s2 =>
        let o := fixLoop g sel rest (errs.erase e) s2
        { o with trace := Event.fixCall e :: o.trace }
      | none =>
        let o := fixLoop g sel rest errs s
        { o with trace := Event.fixCall e :: Event.faultLogged e :: o.trace }

/-- Embedding of `QualityAssurance.fix`: raises a `RuntimeError` when the
rule is not fixable (before the undo chunk is opened and before any error
is touched); otherwise runs the whole loop inside `with undo.UndoContext()`,
whose `__enter__`/`__exit__` open and close the undo chunk on every exit
path, including when an exception propagates out of the loop. -/
def QualityAssurance.fix (r : QualityAssurance) (s : Scene) : FixOutcome :=
  match r.fixImpl with
  | none => ⟨r.errors, s, [], some (PyExc.runtimeNotFixable r.name)⟩
  | some g =>
    let o := fixLoop g r.selectable r.errors r.errors s
    { o with trace := Event.openChunk :: o.trace ++ [Event.closeChunk] }

/-- Embedding of the `ifNoErrorsReturn` decorator of `utils/decorators.py`:
if the error list is empty return the given argument, otherwise the wrapped
function's value. -/
def ifNoErrorsReturn {α : Type} (argument : α) (errors : List Err) (value : α) : α :=
  if errors = [] then argument else value

/-- Replace every occurrence of `pat` (scanning left to right) by `rep`;
the fuel argument, initialised to the text's length, makes the recursion
structural. -/
def replaceSubFuel (pat rep : List Char) : Nat → List Char → List Char
  | _, [] => []
  | 0, l => l
  | fuel + 1, c :: t =>
    if pat ≠ [] ∧ pat.isPrefixOf (c :: t) then
      rep ++ replaceSubFuel pat rep fuel ((c :: t).drop pat.length)
    else
      c :: replaceSubFuel pat rep fuel t

/-- Replace every occurrence of `pat` (scanning left to right) by `rep`. -/
def replaceSub (pat rep l : List Char) : List Char :=
  replaceSubFuel pat rep l.length l

/-- Embedding of Python's `template.format(n)` for the message templates of
the repository's checks, which all use the positional field `{0}`:
substitutes the error count for each `{0}` field. -/
def pyFormat (template : String) (n : Nat) : String :=
  String.mk (replaceSub "{0}".data (toString n).data template.data)

/-- Embedding of the `state` property: `ifNoErrorsReturn(0)` around
returning `self._urgency`. -/
def QualityAssurance.state (r : QualityAssurance) : Nat :=
  ifNoErrorsReturn 0 r.errors r.urgency

/-- Embedding of the `message` property: `ifNoErrorsReturn("")` around
`self._message.format(len(self.errors))`. -/
def QualityAssurance.message (r : QualityAssurance) : String :=
  ifNoErrorsReturn "" r.errors (pyFormat r.messageTemplate r.errors.length)

/-- First-occurrence deduplication, written the way the spec words it:
keep the first occurrence of each subject and silently discard the exact
duplicates that come later.  `QualityAssurance.find` is proved to refine
this definition. -/
def dedupFirst : List Err → List Err
  | [] => []
  | e :: rest => e :: dedupFirst (rest.filter (fun x => x != e))
termination_by l => l.length
decreasing_by
  simpa using Nat.lt_succ_of_le (List.length_filter_le _ rest)

/-! ### Lemmas about `findLoop` / `dedupFirst` -/

theorem mem_dedupFirst (l : List Err) (x : Err) : x ∈ dedupFirst l ↔ x ∈ l := by
  induction l using dedupFirst.induct with
  | case1 => simp [dedupFirst]
  | case2 e rest ih =>
    simp only [dedupFirst, List.mem_cons, ih, List.mem_filter, bne_iff_ne, ne_eq,
      decide_eq_true_eq]
    constructor
    · rintro (rfl | ⟨hx, _⟩)
      · exact Or.inl rfl
      · exact Or.inr hx
    · rintro (rfl | hx)
      · exact Or.inl rfl
      · by_cases hxe : x = e
        · exact Or.inl hxe
        · exact Or.inr ⟨hx, hxe⟩

theorem nodup_dedupFirst (l : List Err) : (dedupFirst l).Nodup := by
  induction l using dedupFirst.induct with
  | case1 => simp [dedupFirst]
  | case2 e rest ih =>
    rw [dedupFirst]
    refine List.nodup_cons.mpr ⟨?_, ih⟩
    intro hmem
    rcases (List.mem_filter.mp ((mem_dedupFirst _ _).mp hmem)).2 with h
    simp at h

theorem dedupFirst_sublist (l : List Err) : (dedupFirst l).Sublist l := by
  induction l using dedupFirst.induct with
  | case1 => simp [dedupFirst]
  | case2 e rest ih =>
    rw [dedupFirst]
    exact (ih.trans (List.filter_sublist rest)).cons₂ e

theorem findLoop_eq (l : List Err) : ∀ acc : List Err,
    findLoop acc l = acc ++ dedupFirst (l.filter (fun x => decide (x ∉ acc))) := by
  induction l with
  | nil => intro acc; simp [findLoop, dedupFirst]
  | cons e rest ih =>
    intro acc
    by_cases h : e ∈ acc
    · have hpe : (fun x => decide (x ∉ acc)) e = false := by simp [h]
      simp only [findLoop, if_pos h, ih acc, List.filter_cons, hpe, if_neg, Bool.false_eq_true,
        not_false_eq_true]
    · have hpe : (fun x => decide (x ∉ acc)) e = true := by simp [h]
      have hfilter :
          (rest.filter (fun x => decide (x ∉ acc))).filter (fun x => x != e)
            = rest.filter (fun x => decide (x ∉ acc ++ [e])) := by
        rw [List.filter_filter]
        apply List.filter_congr
        intro x _
        by_cases hxa : x ∈ acc <;> by_cases hxe : x = e <;>
          simp [hxa, hxe, List.mem_append]
      simp only [findLoop, if_neg h, ih (acc ++ [e]), List.filter_cons, hpe, if_pos,
        dedupFirst, hfilter, List.append_assoc, List.singleton_append]

theorem findLoop_nil_eq (l : List Err) : findLoop [] l = dedupFirst l := by
  have h := findLoop_eq l []
  simpa using h

/-! ### Sample rules used to instantiate the theorems on concrete inputs -/

/-- A concrete detection pass yielding a duplicated subject. -/
def sampleFindSeq : Scene → List Err :=
  fun _ => [.str "a", .str "b", .str "a", .tup ["a", "b"]]

/-- A findable-only rule. -/
def sampleFindRule : QualityAssurance :=
  { name := "sampleFind", findImpl := some sampleFindSeq }

/-- `sampleFindRule` after `find()` on the empty scene. -/
def sampleFoundRule : QualityAssurance :=
  { sampleFindRule with errors := [.str "a", .str "b", .tup ["a", "b"]] }

/-- A rule with neither `_find` nor `_fix` implemented. -/
def sampleBareRule : QualityAssurance := { name := "bare" }

/-- A remediation that always succeeds without touching the scene. -/
def sampleFixImpl : Err → Scene → Option Scene := fun _ s => some s

/-- A fixable rule with one error. -/
def sampleFixRule : QualityAssurance :=
  { name := "sampleFix", errors := [.str "a"], fixImpl := some sampleFixImpl }

/-! ### C5, C9, C4 -/

/-- Claim C5: for every findable rule and every detection sequence, `find()` first
clears the error list (the result does not depend on the prior errors) and
stores each distinct subject exactly once, keeping only the first occurrence
of a repeated subject and preserving first-seen order: the stored list is
exactly the first-occurrence deduplication of the yielded sequence, has no
two value-equal entries, has the same members as the yielded sequence, and
is a subsequence of it. -/
theorem find_clears_and_dedups (r : QualityAssurance) (s : Scene) (f : Scene → List Err)
    (hf : r.findImpl = some f) :
    ∃ r2, r.find s = .ok r2 ∧ r2.errors = dedupFirst (f s) ∧ r2.errors.Nodup ∧
      (∀ e, e ∈ r2.errors ↔ e ∈ f s) ∧ r2.errors.Sublist (f s) ∧
      ∀ prior, QualityAssurance.find { r with errors := prior } s = .ok r2 := by
  refine ⟨{ r with errors := findLoop [] (f s) }, ?_, ?_, ?_, ?_, ?_, ?_⟩
  · simp [QualityAssurance.find, hf]
  · simp [findLoop_nil_eq]
  · simp [findLoop_nil_eq, nodup_dedupFirst]
  · intro e; simp [findLoop_nil_eq, mem_dedupFirst]
  · simp [findLoop_nil_eq, dedupFirst_sublist]
  · intro prior; simp [QualityAssurance.find, hf]

/-- Witness for C5 at a concrete rule whose detection pass yields a
duplicate. -/
theorem find_clears_and_dedups_w :
    ∃ r2, sampleFindRule.find [] = .ok r2 ∧
      r2.errors = dedupFirst (sampleFindSeq []) ∧ r2.errors.Nodup ∧
      (∀ e, e ∈ r2.errors ↔ e ∈ sampleFindSeq []) ∧
      r2.errors.Sublist (sampleFindSeq []) ∧
      ∀ prior, QualityAssurance.find { sampleFindRule with errors := prior } [] = .ok r2 :=
  find_clears_and_dedups sampleFindRule [] sampleFindSeq rfl

/-- Claim C9: detection is idempotent with respect to an unchanged graph: when
`find()` succeeds and returns the updated rule, running `find()` again on
that rule over the same scene succeeds and returns the very same rule, in
particular the identical ordered error list. -/
theorem find_idempotent (r : QualityAssurance) (s : Scene) (r2 : QualityAssurance)
    (h : r.find s = .ok r2) : r2.find s = .ok r2 := by
  cases hf : r.findImpl with
  | none => simp [QualityAssurance.find, hf] at h
  | some f =>
    simp only [QualityAssurance.find, hf] at h
    cases h
    simp [QualityAssurance.find, hf]

/-- Witness for C9: the second `find()` on a concrete evaluated rule
reproduces it exactly. -/
theorem find_idempotent_w : sampleFoundRule.find [] = .ok sampleFoundRule :=
  find_idempotent sampleFindRule [] sampleFoundRule (by rfl)

/-- Exceptions escaping the `fix()` loop body can only be the `ValueError`
of `list.remove`; remediation failures themselves are caught by the bare
`except`. -/
theorem fixLoop_exc_cases (g : Err → Scene → Option Scene) (sel : Bool) :
    ∀ (snap errs : List Err) (s : Scene),
      (fixLoop g sel snap errs s).exc = none ∨
      (fixLoop g sel snap errs s).exc = some PyExc.valueErrorRemove := by
  intro snap
  induction snap with
  | nil => intro errs s; left; rfl
  | cons e rest ih =>
    intro errs s
    simp only [fixLoop]
    by_cases h1 : (sel && staleString s e) = true
    · rw [if_pos h1]
      by_cases h2 : e ∈ errs
      · rw [if_pos h2]; simpa using ih (errs.erase e) s
      · rw [if_neg h2]; right; rfl
    · rw [if_neg h1]
      cases hg : g e s with
      | some s2 => simpa using ih (errs.erase e) s2
      | none => simpa using ih errs s

/-- Claim C4: calling `find()` on a rule with no `_find` implementation raises the
engine's `RuntimeError` and returns no updated rule; calling `fix()` on a
rule with no `_fix` implementation raises the engine's `RuntimeError` with
the error list, the scene and the trace untouched (no undo chunk is even
opened); on a rule that has the capability, `find()` succeeds and `fix()`
never raises the capability `RuntimeError`. -/
theorem capability_violation (r : QualityAssurance) (s : Scene) :
    (r.findImpl = none → r.find s = .error (PyExc.runtimeNotFindable r.name))
    ∧ (∀ f, r.findImpl = some f → r.find s = .ok { r with errors := findLoop [] (f s) })
    ∧ (r.fixImpl = none →
        r.fix s = ⟨r.errors, s, [], some (PyExc.runtimeNotFixable r.name)⟩)
    ∧ (∀ g, r.fixImpl = some g →
        ∀ nm, (r.fix s).exc ≠ some (PyExc.runtimeNotFixable nm)) := by
  refine ⟨?_, ?_, ?_, ?_⟩
  · intro h; simp [QualityAssurance.find, h]
  · intro f h; simp [QualityAssurance.find, h]
  · intro h; simp [QualityAssurance.fix, h]
  · intro g h nm
    have hx : (r.fix s).exc = (fixLoop g r.selectable r.errors r.errors s).exc := by
      simp [QualityAssurance.fix, h]
    rw [hx]
    rcases fixLoop_exc_cases g r.selectable r.errors r.errors s with h2 | h2 <;>
      simp [h2]

/-- Witness for C4 at concrete rules with and without the capabilities. -/
theorem capability_violation_w :
    (sampleBareRule.find [] = .error (PyExc.runtimeNotFindable "bare"))
    ∧ (sampleFindRule.find [] = .ok { sampleFindRule with errors := findLoop [] (sampleFindSeq []) })
    ∧ (sampleBareRule.fix [] = ⟨[], [], [], some (PyExc.runtimeNotFixable "bare")⟩)
    ∧ ((sampleFixRule.fix []).exc ≠ some (PyExc.runtimeNotFixable "sampleFix")) :=
  ⟨(capability_violation sampleBareRule []).1 rfl,
   (capability_violation sampleFindRule []).2.1 sampleFindSeq rfl,
   (capability_violation sampleBareRule []).2.2.1 rfl,
   (capability_violation sampleFixRule []).2.2.2 sampleFixImpl rfl "sampleFix"⟩

/-! ### Lemmas about the `fix()` loop -/

/-- Every event the loop emits is about one of the snapshot's error
records; in particular the loop itself never opens or closes undo chunks. -/
theorem fixLoop_trace_events (g : Err → Scene → Option Scene) (sel : Bool) :
    ∀ (snap errs : List Err) (s : Scene) (ev : Event),
      ev ∈ (fixLoop g sel snap errs s).trace →
      ∃ e, e ∈ snap ∧
        (ev = .fixCall e ∨ ev = .staleDrop e ∨ ev = .faultLogged e) := by
  intro snap
  induction snap with
  | nil => intro errs s ev h; simp [fixLoop] at h
  | cons e rest ih =>
    intro errs s ev h
    simp only [fixLoop] at h
    by_cases h1 : (sel && staleString s e) = true
    · rw [if_pos h1] at h
      by_cases h2 : e ∈ errs
      · rw [if_pos h2] at h
        simp only [List.mem_cons] at h
        rcases h with rfl | h
        · exact ⟨e, List.mem_cons_self e rest, Or.inr (Or.inl rfl)⟩
        · obtain ⟨e2, he2, hor⟩ := ih (errs.erase e) s ev h
          exact ⟨e2, List.mem_cons_of_mem e he2, hor⟩
      · rw [if_neg h2] at h
        simp at h
    · rw [if_neg h1] at h
      cases hg : g e s with
      | some s2 =>
        rw [hg] at h
        simp only [List.mem_cons] at h
        rcases h with rfl | h
        · exact ⟨e, List.mem_cons_self e rest, Or.inl rfl⟩
        · obtain ⟨e2, he2, hor⟩ := ih (errs.erase e) s2 ev h
          exact ⟨e2, List.mem_cons_of_mem e he2, hor⟩
      | none =>
        rw [hg] at h
        simp only [List.mem_cons] at h
        rcases h with rfl | rfl | h
        · exact ⟨e, List.mem_cons_self e rest, Or.inl rfl⟩
        · exact ⟨e, List.mem_cons_self e rest, Or.inr (Or.inr rfl)⟩
        · obtain ⟨e2, he2, hor⟩ := ih errs s ev h
          exact ⟨e2, List.mem_cons_of_mem e he2, hor⟩

/-- The live error list only ever shrinks: the loop's final error list is a
subsequence of the one it started from. -/
theorem fixLoop_errors_sublist (g : Err → Scene → Option Scene) (sel : Bool) :
    ∀ (snap errs : List Err) (s : Scene),
      (fixLoop g sel snap errs s).errors.Sublist errs := by
  intro snap
  induction snap with
  | nil => intro errs s; simp [fixLoop]
  | cons e rest ih =>
    intro errs s
    simp only [fixLoop]
    by_cases h1 : (sel && staleString s e) = true
    · rw [if_pos h1]
      by_cases h2 : e ∈ errs
      · rw [if_pos h2]
        exact (ih (errs.erase e) s).trans (errs.erase_sublist e)
      · rw [if_neg h2]
    · rw [if_neg h1]
      cases hg : g e s with
      | some s2 => exact (ih (errs.erase e) s2).trans (errs.erase_sublist e)
      | none => exact ih errs s

/-- When the snapshot has no duplicates and all of its records are still in
the live list, the loop's `list.remove` calls always find their value, so no
`ValueError` (nor anything else) propagates out of the loop. -/
theorem fixLoop_exc_none (g : Err → Scene → Option Scene) (sel : Bool) :
    ∀ (snap errs : List Err) (s : Scene), snap.Nodup → (∀ x ∈ snap, x ∈ errs) →
      (fixLoop g sel snap errs s).exc = none := by
  intro snap
  induction snap with
  | nil => intro errs s _ _; rfl
  | cons e rest ih =>
    intro errs s hnd hsub
    have hmem : e ∈ errs := hsub e (List.mem_cons_self e rest)
    have hnd2 : rest.Nodup := (List.nodup_cons.mp hnd).2
    have hnotin : e ∉ rest := (List.nodup_cons.mp hnd).1
    have hsub2 : ∀ x ∈ rest, x ∈ errs.erase e := fun x hx =>
      (List.mem_erase_of_ne (fun hxe => hnotin (by rw [← hxe]; exact hx))).mpr
        (hsub x (List.mem_cons_of_mem e hx))
    simp only [fixLoop]
    by_cases h1 : (sel && staleString s e) = true
    · rw [if_pos h1, if_pos hmem]
      simpa using ih (errs.erase e) s hnd2 hsub2
    · rw [if_neg h1]
      cases hg : g e s with
      | some s2 => simpa using ih (errs.erase e) s2 hnd2 hsub2
      | none =>
        simpa using ih errs s hnd2 (fun x hx => hsub x (List.mem_cons_of_mem e hx))

/-- A record for which the stale test is false at every scene is never
dropped as stale by the loop. -/
theorem fixLoop_staleDrop_not_mem (g : Err → Scene → Option Scene) (sel : Bool) (e : Err)
    (hcond : ∀ sc : Scene, (sel && staleString sc e) = false) :
    ∀ (snap errs : List Err) (s : Scene),
      Event.staleDrop e ∉ (fixLoop g sel snap errs s).trace := by
  intro snap
  induction snap with
  | nil => intro errs s; simp [fixLoop]
  | cons e0 rest ih =>
    intro errs s
    simp only [fixLoop]
    by_cases h1 : (sel && staleString s e0) = true
    · have hne : e0 ≠ e := by rintro rfl; rw [hcond s] at h1; exact Bool.false_ne_true h1
      rw [if_pos h1]
      by_cases h2 : e0 ∈ errs
      · rw [if_pos h2]
        intro h
        rcases List.mem_cons.mp h with heq | h
        · exact hne (by injection heq with h3; exact h3.symm)
        · exact ih (errs.erase e0) s h
      · rw [if_neg h2]; simp
    · rw [if_neg h1]
      cases hg : g e0 s with
      | some s2 =>
        intro h
        rcases List.mem_cons.mp h with heq | h
        · cases heq
        · exact ih (errs.erase e0) s2 h
      | none =>
        intro h
        rcases List.mem_cons.mp h with heq | h
        · cases heq
        · rcases List.mem_cons.mp h with heq | h
          · cases heq
          · exact ih errs s h

/-- A snapshot record for which the stale test is false at every scene is
always passed to `_fix` (provided no `ValueError` aborts the loop earlier,
which the no-duplicates hypotheses rule out). -/
theorem fixLoop_fixCall_mem (g : Err → Scene → Option Scene) (sel : Bool) (e : Err)
    (hcond : ∀ sc : Scene, (sel && staleString sc e) = false) :
    ∀ (snap errs : List Err) (s : Scene), snap.Nodup → (∀ x ∈ snap, x ∈ errs) →
      e ∈ snap → Event.fixCall e ∈ (fixLoop g sel snap errs s).trace := by
  intro snap
  induction snap with
  | nil => intro errs s _ _ h; simp at h
  | cons e0 rest ih =>
    intro errs s hnd hsub hmem
    have hnd2 : rest.Nodup := (List.nodup_cons.mp hnd).2
    have hnotin : e0 ∉ rest := (List.nodup_cons.mp hnd).1
    have hsub2 : ∀ x ∈ rest, x ∈ errs.erase e0 := fun x hx =>
      (List.mem_erase_of_ne (fun hxe => hnotin (by rw [← hxe]; exact hx))).mpr
        (hsub x (List.mem_cons_of_mem e0 hx))
    simp only [fixLoop]
    rcases List.mem_cons.mp hmem with rfl | hmem2
    · rw [if_neg (by rw [hcond s]; exact Bool.false_ne_true)]
      cases hg : g e s with
      | some s2 => exact List.mem_cons_self _ _
      | none => exact List.mem_cons_self _ _
    · by_cases h1 : (sel && staleString s e0) = true
      · rw [if_pos h1, if_pos (hsub e0 (List.mem_cons_self e0 rest))]
        exact List.mem_cons_of_mem _ (ih (errs.erase e0) s hnd2 hsub2 hmem2)
      · rw [if_neg h1]
        cases hg : g e0 s with
        | some s2 =>
          exact List.mem_cons_of_mem _ (ih (errs.erase e0) s2 hnd2 hsub2 hmem2)
        | none =>
          exact List.mem_cons_of_mem _ (List.mem_cons_of_mem _
            (ih errs s hnd2 (fun x hx => hsub x (List.mem_cons_of_mem e0 hx)) hmem2))

/-! ### C3, C1, C10, C2 -/

/-- Claim C3: for every fixable rule, one `fix()` call runs inside a single undo
transaction: the trace is exactly one `openChunk`, then a chunk-free middle
part, then one `closeChunk`, on every exit path (individual remediation
failures are caught inside the loop), and every remediation call happens in
the middle part, i.e. after the chunk is opened and before it is closed. -/
theorem fix_single_undo_chunk (r : QualityAssurance) (s : Scene)
    (g : Err → Scene → Option Scene) (hg : r.fixImpl = some g) :
    ∃ mid, (r.fix s).trace = Event.openChunk :: mid ++ [Event.closeChunk] ∧
      Event.openChunk ∉ mid ∧ Event.closeChunk ∉ mid ∧
      ∀ e, Event.fixCall e ∈ (r.fix s).trace → Event.fixCall e ∈ mid := by
  have htr : (r.fix s).trace
      = Event.openChunk :: (fixLoop g r.selectable r.errors r.errors s).trace
        ++ [Event.closeChunk] := by
    simp [QualityAssurance.fix, hg]
  refine ⟨(fixLoop g r.selectable r.errors r.errors s).trace, htr, ?_, ?_, ?_⟩
  · intro h
    obtain ⟨e, _, hor⟩ := fixLoop_trace_events g r.selectable r.errors r.errors s _ h
    rcases hor with h2 | h2 | h2 <;> cases h2
  · intro h
    obtain ⟨e, _, hor⟩ := fixLoop_trace_events g r.selectable r.errors r.errors s _ h
    rcases hor with h2 | h2 | h2 <;> cases h2
  · intro e h
    rw [htr] at h
    rcases List.mem_cons.mp h with h2 | h2
    · cases h2
    · rcases List.mem_append.mp h2 with h3 | h3
      · exact h3
      · simp at h3

/-- Witness for C3 at a concrete fixable rule. -/
theorem fix_single_undo_chunk_w :
    ∃ mid, (sampleFixRule.fix []).trace = Event.openChunk :: mid ++ [Event.closeChunk] ∧
      Event.openChunk ∉ mid ∧ Event.closeChunk ∉ mid ∧
      ∀ e, Event.fixCall e ∈ (sampleFixRule.fix []).trace → Event.fixCall e ∈ mid :=
  fix_single_undo_chunk sampleFixRule [] sampleFixImpl rfl

/-- The remediation used by the C1 witness: raises exactly on `b`. -/
def w1fix : Err → Scene → Option Scene :=
  fun e sc => if e == Err.str "b" then none else some sc

/-- The C1 witness rule, with error list `[a, b, c]`. -/
def w1rule : QualityAssurance :=
  { name := "w1", errors := [.str "a", .str "b", .str "c"], fixImpl := some w1fix }

/-- Claim C1: for a fixable rule whose error list is `[a, b, c]` (distinct
records, none of which tests stale) and whose remediation raises exactly on
`b`, `fix()` attempts remediation on all three errors in order, logs the
fault of `b` and continues, ends with the error list equal to `[b]`, and
propagates no exception. -/
theorem fix_fault_isolation (r : QualityAssurance) (s : Scene)
    (g : Err → Scene → Option Scene) (a b c : Err)
    (hg : r.fixImpl = some g) (herr : r.errors = [a, b, c])
    (hab : a ≠ b) (hbc : b ≠ c)
    (hA : ∀ sc, (g a sc).isSome) (hB : ∀ sc, g b sc = none) (hC : ∀ sc, (g c sc).isSome)
    (hstale : ∀ e ∈ ([a, b, c] : List Err), ∀ sc : Scene,
      (r.selectable && staleString sc e) = false) :
    (r.fix s).errors = [b] ∧ (r.fix s).exc = none ∧
      (r.fix s).trace = [Event.openChunk, Event.fixCall a, Event.fixCall b,
        Event.faultLogged b, Event.fixCall c, Event.closeChunk] := by
  obtain ⟨s1, hs1⟩ := Option.isSome_iff_exists.mp (hA s)
  have hBs := hB s1
  obtain ⟨s2, hs2⟩ := Option.isSome_iff_exists.mp (hC s1)
  have e1 : ([a, b, c] : List Err).erase a = [b, c] := by
    simp [List.erase_cons]
  have e2 : ([b, c] : List Err).erase c = [b] := by
    simp [List.erase_cons, hbc]
  have h1 := hstale a (by simp) s
  have h2 := hstale b (by simp) s1
  have h3 := hstale c (by simp) s1
  refine ⟨?_, ?_, ?_⟩ <;>
    simp [QualityAssurance.fix, hg, herr, fixLoop, h1, h2, h3, hs1, hBs, hs2, e1, e2]

/-- Witness for C1: a concrete rule whose remediation raises exactly on the
middle error. -/
theorem fix_fault_isolation_w :
    (w1rule.fix []).errors = [Err.str "b"] ∧ (w1rule.fix []).exc = none ∧
      (w1rule.fix []).trace = [Event.openChunk, Event.fixCall (Err.str "a"),
        Event.fixCall (Err.str "b"), Event.faultLogged (Err.str "b"),
        Event.fixCall (Err.str "c"), Event.closeChunk] :=
  fix_fault_isolation w1rule [] w1fix (.str "a") (.str "b") (.str "c") rfl rfl
    (by decide) (by decide)
    (fun _ => rfl) (fun _ => rfl) (fun _ => rfl)
    (fun _ _ _ => rfl)

/-- The C10 witness rule: selectable, with a tuple error whose members do
not resolve anywhere. -/
def w10rule : QualityAssurance :=
  { name := "w10", selectable := true, errors := [Err.tup ["x", "y"]],
    fixImpl := some sampleFixImpl }

/-- Claim C10: the stale-subject drop in `fix()` applies only to errors that are a
single string identifier on a selectable rule: an error that is a
tuple/list of identifiers, or any error of a non-selectable rule, is never
dropped as stale and is always passed to the remediation operation, even
when its subject does not resolve in the graph. -/
theorem fix_stale_drop_guard (r : QualityAssurance) (s : Scene)
    (g : Err → Scene → Option Scene) (e : Err)
    (hg : r.fixImpl = some g) (hmem : e ∈ r.errors) (hnd : r.errors.Nodup)
    (h : r.selectable = false ∨ ∃ xs, e = Err.tup xs) :
    Event.fixCall e ∈ (r.fix s).trace ∧ Event.staleDrop e ∉ (r.fix s).trace := by
  have hcond : ∀ sc : Scene, (r.selectable && staleString sc e) = false := by
    rcases h with h | ⟨xs, rfl⟩
    · intro sc; simp [h]
    · intro sc; simp [staleString]
  have htr : (r.fix s).trace
      = Event.openChunk :: (fixLoop g r.selectable r.errors r.errors s).trace
        ++ [Event.closeChunk] := by
    simp [QualityAssurance.fix, hg]
  rw [htr]
  constructor
  · exact List.mem_cons_of_mem _ (List.mem_append_left _
      (fixLoop_fixCall_mem g r.selectable e hcond r.errors r.errors s hnd
        (fun x hx => hx) hmem))
  · intro h2
    rcases List.mem_cons.mp h2 with h3 | h3
    · cases h3
    · rcases List.mem_append.mp h3 with h4 | h4
      · exact fixLoop_staleDrop_not_mem g r.selectable e hcond r.errors r.errors s h4
      · simp at h4

/-- Witness for C10: a selectable rule's tuple error with unresolvable
members is still passed to `_fix` and never stale-dropped. -/
theorem fix_stale_drop_guard_w :
    Event.fixCall (Err.tup ["x", "y"]) ∈ (w10rule.fix []).trace ∧
      Event.staleDrop (Err.tup ["x", "y"]) ∉ (w10rule.fix []).trace :=
  fix_stale_drop_guard w10rule [] sampleFixImpl (Err.tup ["x", "y"]) rfl
    (by decide) (by decide) (Or.inr ⟨["x", "y"], rfl⟩)

/-- The C2 counterexample rule: selection-scoped (`onSelected = true`) but
not selectable, with one stale string error. -/
def w2rule : QualityAssurance :=
  { name := "w2", onSelected := true, selectable := false,
    errors := [Err.str "x"], fixImpl := some sampleFixImpl }

/-- Counterexample to C2 as stated: a selection-scoped (`onSelected`) rule
that is not selectable, whose single error `"x"` does not resolve in the
scene graph; `fix()` nevertheless invokes the remediation operation for it
and never performs a stale drop — the code's stale test keys on the
`_selectable` flag, not on selection scoping. -/
theorem fix_stale_scoped_cex :
    w2rule.onSelected = true ∧ objExists [] "x" = false ∧
      (w2rule.fix []).trace
        = [Event.openChunk, Event.fixCall (Err.str "x"), Event.closeChunk] ∧
      Event.staleDrop (Err.str "x") ∉ (w2rule.fix []).trace := by
  decide

/-- Claim C2 as amended: for every selectable rule (selectable, not
selection-scoped, is what the code tests), when `fix()` encounters an error
that is a single string identifier no longer resolving in the graph, it
silently removes that error from the error list and continues with the
remaining errors, without invoking the remediation operation for it and
without raising. -/
theorem fix_stale_drop_selectable (r : QualityAssurance) (s : Scene)
    (g : Err → Scene → Option Scene) (n : String) (rest : List Err)
    (hg : r.fixImpl = some g) (hsel : r.selectable = true)
    (herr : r.errors = Err.str n :: rest) (hnd : r.errors.Nodup)
    (hobj : objExists s n = false) :
    Event.staleDrop (Err.str n) ∈ (r.fix s).trace ∧
      Event.fixCall (Err.str n) ∉ (r.fix s).trace ∧
      Err.str n ∉ (r.fix s).errors ∧ (r.fix s).exc = none := by
  have hnotin : Err.str n ∉ rest := by
    rw [herr] at hnd; exact (List.nodup_cons.mp hnd).1
  have hnd2 : rest.Nodup := by
    rw [herr] at hnd; exact (List.nodup_cons.mp hnd).2
  have hcondhd : (r.selectable && staleString s (Err.str n)) = true := by
    simp [hsel, staleString, hobj]
  have hstep : fixLoop g r.selectable r.errors r.errors s
      = { fixLoop g r.selectable rest rest s with
          trace := Event.staleDrop (Err.str n) :: (fixLoop g r.selectable rest rest s).trace } := by
    rw [herr]
    simp only [fixLoop, hcondhd, if_true, List.mem_cons, true_or, if_pos,
      List.erase_cons_head]
  have hfix : r.fix s
      = { fixLoop g r.selectable rest rest s with
          trace := Event.openChunk :: Event.staleDrop (Err.str n)
            :: (fixLoop g r.selectable rest rest s).trace ++ [Event.closeChunk] } := by
    simp [QualityAssurance.fix, hg, hstep]
  rw [hfix]
  refine ⟨by simp, ?_, ?_, ?_⟩
  · intro h
    simp only [List.cons_append, List.mem_cons] at h
    rcases h with h2 | h2 | h2
    · cases h2
    · cases h2
    · rcases List.mem_append.mp h2 with h3 | h3
      · obtain ⟨e2, he2, hor⟩ :=
          fixLoop_trace_events g r.selectable rest rest s _ h3
        rcases hor with h4 | h4 | h4
        · injection h4 with h5; exact hnotin (h5 ▸ he2)
        · cases h4
        · cases h4
      · simp at h3
  · intro h
    exact hnotin ((fixLoop_errors_sublist g r.selectable rest rest s).mem h)
  · exact fixLoop_exc_none g r.selectable rest rest s hnd2 (fun x hx => hx)

/-- The rule used by the C2 witness: selectable, one stale and one live
string error. -/
def w2arule : QualityAssurance :=
  { name := "w2a", selectable := true,
    errors := [Err.str "x", Err.str "y"], fixImpl := some sampleFixImpl }

/-- Witness for the amended C2: the stale error `"x"` is silently dropped
while the remaining error `"y"` is still remediated, with no exception. -/
theorem fix_stale_drop_selectable_w :
    Event.staleDrop (Err.str "x") ∈ (w2arule.fix ["y"]).trace ∧
      Event.fixCall (Err.str "x") ∉ (w2arule.fix ["y"]).trace ∧
      Err.str "x" ∉ (w2arule.fix ["y"]).errors ∧ (w2arule.fix ["y"]).exc = none :=
  fix_stale_drop_selectable w2arule ["y"] sampleFixImpl "x" [Err.str "y"]
    rfl rfl rfl (by decide) (by decide)

/-! ### C6 -/

/-- Claim C6: for every rule whose declared urgency is not the neutral value and
whose formatted message is non-empty (true of all checks in the
repository), `state` returns `0` (Neutral) exactly when the error list is
empty and otherwise returns the declared urgency, and `message` returns the
empty string exactly when the error list is empty and otherwise the message
template formatted with the number of errors. -/
theorem state_and_message (r : QualityAssurance)
    (hu : r.urgency ≠ 0)
    (hm : pyFormat r.messageTemplate r.errors.length ≠ "") :
    (r.state = 0 ↔ r.errors = []) ∧
      (r.errors ≠ [] → r.state = r.urgency) ∧
      (r.message = "" ↔ r.errors = []) ∧
      (r.errors ≠ [] → r.message = pyFormat r.messageTemplate r.errors.length) := by
  by_cases h : r.errors = [] <;>
    simp [QualityAssurance.state, QualityAssurance.message, ifNoErrorsReturn, h, hu, hm]

/-- The C6 witness rule, carrying the metadata of the repository's
`UnknownNodes` check after finding two errors. -/
def w6rule : QualityAssurance :=
  { name := "Unknown Nodes", urgency := 1, categories := ["Scene"],
    messageTemplate := "{0} unknown node(s)",
    errors := [Err.str "a", Err.str "b"] }

/-- Witness for C6 at a concrete evaluated rule: state is the declared
urgency and the message carries the error count. -/
theorem state_and_message_w :
    (w6rule.state = 0 ↔ w6rule.errors = []) ∧
      (w6rule.errors ≠ [] → w6rule.state = w6rule.urgency) ∧
      (w6rule.message = "" ↔ w6rule.errors = []) ∧
      (w6rule.errors ≠ [] →
        w6rule.message = pyFormat w6rule.messageTemplate w6rule.errors.length) :=
  state_and_message w6rule (by decide) (by decide)

/-! ### Registry: `checks/__init__.py` -/

/-- Embedding of Python's `source.find(pattern)` on character lists: the
lowest index at which `pattern` occurs as a substring, scanning from the
left. -/
def findSub (pat : List Char) : List Char → Option Nat
  | [] => if pat.isPrefixOf ([] : List Char) then some 0 else none
  | c :: t => if pat.isPrefixOf (c :: t) then some 0 else (findSub pat t).map (· + 1)

/-- Embedding of Python's `source.find(pattern)`: first index of the
substring, `-1` when absent. -/
def pyFind (source pattern : String) : Int :=
  match findSub pattern.data source.data with
  | some k => (k : Int)
  | none => -1

/-- One check class as the registry sees it: its `__name__` and the text
`inspect.getsource(inspect.getmodule(x))` of the module it lives in. -/
structure CheckClass where
  name : String
  modSource : String
deriving DecidableEq, Repr

/-- The sort key of `getChecks`:
`inspect.getsource(inspect.getmodule(x)).find(x.__class__.__name__)`. -/
def classKey (c : CheckClass) : Int := pyFind c.modSource c.name

/-- Lexicographic code-point comparison of character lists: how Python
compares the `str` names that `inspect.getmembers` sorts by. -/
def charsLt : List Char → List Char → Bool
  | [], [] => false
  | [], _ :: _ => true
  | _ :: _, [] => false
  | c :: cs, d :: ds => if c = d then charsLt cs ds else decide (c < d)

theorem charsLt_nil_right : ∀ a : List Char, charsLt a [] = false
  | [] => rfl
  | _ :: _ => rfl

theorem charsLt_asymm : ∀ a b : List Char, charsLt a b = true → charsLt b a = false
  | [], [] => by simp [charsLt]
  | [], _ :: _ => by simp [charsLt]
  | _ :: _, [] => by simp [charsLt]
  | c :: cs, d :: ds => by
    simp only [charsLt]
    by_cases h : c = d
    · rw [if_pos h, if_pos h.symm]
      exact charsLt_asymm cs ds
    · rw [if_neg h, if_neg (fun h2 => h h2.symm)]
      simp only [decide_eq_true_eq, decide_eq_false_iff_not]
      exact fun h2 => lt_asymm h2

theorem charsLt_trans : ∀ a b c : List Char,
    charsLt a b = true → charsLt b c = true → charsLt a c = true
  | [], [], _ => by simp [charsLt]
  | [], _ :: _, c => by
    intro _ h2
    cases c with
    | nil => rw [charsLt_nil_right] at h2; exact absurd h2 (by simp)
    | cons z zs => simp [charsLt]
  | _ :: _, [], _ => by simp [charsLt]
  | a :: as, b :: bs, c => by
    intro h1 h2
    cases c with
    | nil => rw [charsLt_nil_right] at h2; exact absurd h2 (by simp)
    | cons z zs =>
      simp only [charsLt] at h1 h2 ⊢
      by_cases hab : a = b
      · rw [if_pos hab] at h1
        by_cases hbz : b = z
        · rw [if_pos hbz] at h2
          rw [if_pos (hab.trans hbz)]
          exact charsLt_trans as bs zs h1 h2
        · rw [if_neg hbz, decide_eq_true_eq] at h2
          have haz : a ≠ z := by rw [hab]; exact hbz
          rw [if_neg haz, decide_eq_true_eq, hab]
          exact h2
      · rw [if_neg hab, decide_eq_true_eq] at h1
        by_cases hbz : b = z
        · have haz : a ≠ z := by rw [← hbz]; exact hab
          rw [if_neg haz, decide_eq_true_eq, ← hbz]
          exact h1
        · rw [if_neg hbz, decide_eq_true_eq] at h2
          have haz2 : a < z := lt_trans h1 h2
          rw [if_neg (ne_of_lt haz2), decide_eq_true_eq]
          exact haz2

theorem charsLt_eq_of_not : ∀ a b : List Char,
    charsLt a b = false → charsLt b a = false → a = b
  | [], [] => by intro _ _; rfl
  | [], _ :: _ => by simp [charsLt]
  | _ :: _, [] => by simp [charsLt]
  | c :: cs, d :: ds => by
    intro h1 h2
    simp only [charsLt] at h1 h2
    by_cases h : c = d
    · rw [if_pos h] at h1
      rw [if_pos h.symm] at h2
      rw [h, charsLt_eq_of_not cs ds h1 h2]
    · rcases lt_trichotomy c d with hlt | heq | hgt
      · rw [if_neg h, decide_eq_false_iff_not] at h1
        exact absurd hlt h1
      · exact absurd heq h
      · rw [if_neg (fun h2x => h h2x.symm), decide_eq_false_iff_not] at h2
        exact absurd hgt h2

/-- The enumeration order of `inspect.getmembers`: ascending member name
under Python's lexicographic code-point string comparison (`a` not after
`b`). -/
def nameLe (a b : CheckClass) : Prop := charsLt b.name.data a.name.data = false

/-- Strict version of `nameLe`: `a`'s name comes strictly before `b`'s. -/
def nameLt (a b : CheckClass) : Prop := charsLt a.name.data b.name.data = true

/-- Ascending sort-key order (position of the class name in its module's
source). -/
def keyLe (a b : CheckClass) : Prop := classKey a ≤ classKey b

/-- Strictly ascending sort-key order. -/
def keyLt (a b : CheckClass) : Prop := classKey a < classKey b

instance : DecidableRel nameLe := fun a b =>
  inferInstanceAs (Decidable (charsLt b.name.data a.name.data = false))

instance : DecidableRel nameLt := fun a b =>
  inferInstanceAs (Decidable (charsLt a.name.data b.name.data = true))

instance : DecidableRel keyLe := fun a b => inferInstanceAs (Decidable (classKey a ≤ classKey b))

instance : DecidableRel keyLt := fun a b => inferInstanceAs (Decidable (classKey a < classKey b))

instance : IsTotal CheckClass keyLe := ⟨fun a b => Int.le_total (classKey a) (classKey b)⟩

instance : IsTrans CheckClass keyLe := ⟨fun _ _ _ h1 h2 => le_trans h1 h2⟩

/-- Embedding of `getChecks` of `checks/__init__.py`: `inspect.getmembers`
enumerates the members of the checks namespace sorted by name, and the
`checks.sort(key=...)` call then stably sorts them by the position of each
class's name in its module's source text. -/
def getChecks (members : List CheckClass) : List CheckClass :=
  List.insertionSort keyLe (List.insertionSort nameLe members)

instance : IsTotal CheckClass nameLe :=
  ⟨fun a b => by
    cases h : charsLt b.name.data a.name.data with
    | false => exact Or.inl h
    | true => exact Or.inr (charsLt_asymm _ _ h)⟩

instance : IsTrans CheckClass nameLe :=
  ⟨fun a b c h1 h2 => by
    have h1b : charsLt b.name.data a.name.data = false := h1
    have h2b : charsLt c.name.data b.name.data = false := h2
    show charsLt c.name.data a.name.data = false
    cases hca : charsLt c.name.data a.name.data with
    | false => rfl
    | true =>
      cases hab : charsLt a.name.data b.name.data with
      | true =>
        exact absurd (charsLt_trans _ _ _ hca hab) (by simp [h2b])
      | false =>
        have heq := charsLt_eq_of_not _ _ hab h1b
        rw [heq] at hca
        exact absurd hca (by simp [h2b])⟩

/-- The order `getChecks` actually produces: ascending sort key, with key
ties broken by ascending class name (the alphabetical order of
`inspect.getmembers`, which Python's stable `sort` preserves at ties). -/
def lexLe (a b : CheckClass) : Prop :=
  keyLt a b ∨ (classKey a = classKey b ∧ nameLe a b)

/-- The strict version of `lexLe`. -/
def lexLt (a b : CheckClass) : Prop :=
  keyLt a b ∨ (classKey a = classKey b ∧ nameLt a b)

instance : DecidableRel lexLe := fun a b =>
  inferInstanceAs (Decidable (keyLt a b ∨ (classKey a = classKey b ∧ nameLe a b)))

instance : DecidableRel lexLt := fun a b =>
  inferInstanceAs (Decidable (keyLt a b ∨ (classKey a = classKey b ∧ nameLt a b)))

/-- `lexLe` implies the weak key order. -/
theorem lexLe_key_le {a b : CheckClass} (h : lexLe a b) : classKey a ≤ classKey b := by
  rcases h with h | ⟨h, _⟩
  · exact le_of_lt h
  · exact le_of_eq h

/-- `lexLt` and the reversed `lexLe` are incompatible. -/
theorem lexLt_lexLe_asymm {a b : CheckClass} (h1 : lexLt b a) (h2 : lexLe a b) : False := by
  rcases h1 with h1 | ⟨hk1, hn1⟩
  · exact absurd (lexLe_key_le h2) (not_le_of_lt h1)
  · rcases h2 with h2 | ⟨hk2, hn2⟩
    · have h3 : classKey a < classKey b := h2
      rw [hk1] at h3
      exact lt_irrefl _ h3
    · have hn1b : charsLt b.name.data a.name.data = true := hn1
      have hn2b : charsLt b.name.data a.name.data = false := hn2
      rw [hn2b] at hn1b
      exact Bool.false_ne_true hn1b

/-- Inserting, by key only, an element that name-precedes a `lexLe`-sorted
list keeps the list `lexLe`-sorted: the insertion point puts the new
element before exactly the elements with strictly larger key or with equal
key (which it name-precedes). -/
theorem orderedInsert_sorted_lex (x : CheckClass) :
    ∀ T : List CheckClass, T.Sorted lexLe → (∀ b ∈ T, nameLe x b) →
      (List.orderedInsert keyLe x T).Sorted lexLe := by
  intro T
  induction T with
  | nil =>
    intro _ _
    simp [List.orderedInsert, List.sorted_singleton]
  | cons b T2 ih =>
    intro hs hn
    rw [List.orderedInsert]
    by_cases hkb : keyLe x b
    · rw [if_pos hkb]
      have hkb2 : classKey x ≤ classKey b := hkb
      have hxb : lexLe x b := by
        rcases lt_or_eq_of_le hkb2 with h | h
        · exact Or.inl h
        · exact Or.inr ⟨h, hn b (List.mem_cons_self b T2)⟩
      refine List.sorted_cons.mpr ⟨?_, hs⟩
      intro y hy
      rcases List.mem_cons.mp hy with rfl | hy2
      · exact hxb
      · have hby : lexLe b y := (List.sorted_cons.mp hs).1 y hy2
        have hkey : classKey x ≤ classKey y := le_trans hkb2 (lexLe_key_le hby)
        rcases lt_or_eq_of_le hkey with h | h
        · exact Or.inl h
        · exact Or.inr ⟨h, hn y (List.mem_cons_of_mem b hy2)⟩
    · rw [if_neg hkb]
      have hbx : keyLt b x := by
        have h2 : ¬ classKey x ≤ classKey b := hkb
        exact lt_of_not_le h2
      refine List.sorted_cons.mpr ⟨?_, ih (List.sorted_cons.mp hs).2
        (fun c hc => hn c (List.mem_cons_of_mem b hc))⟩
      intro y hy
      rcases (List.mem_orderedInsert keyLe).mp hy with rfl | hy2
      · exact Or.inl hbx
      · exact (List.sorted_cons.mp hs).1 y hy2

/-- Key-sorting a name-sorted list yields a list sorted by key with name
order at key ties: insertion sort is stable. -/
theorem sorted_lex_insertionSort :
    ∀ l : List CheckClass, l.Sorted nameLe → (List.insertionSort keyLe l).Sorted lexLe := by
  intro l
  induction l with
  | nil =>
    intro _
    simp [List.insertionSort]
  | cons x xs ih =>
    intro hs
    rw [List.insertionSort]
    apply orderedInsert_sorted_lex x _ (ih (List.sorted_cons.mp hs).2)
    intro b hb
    exact (List.sorted_cons.mp hs).1 b ((List.perm_insertionSort keyLe xs).mem_iff.mp hb)

/-- A permutation of a strictly `lexLt`-ordered list that is `lexLe`-sorted
is that list. -/
theorem eq_of_perm_sorted_lex :
    ∀ (l2 l1 : List CheckClass), l1.Perm l2 →
      l1.Sorted lexLe → l2.Pairwise lexLt → l1 = l2 := by
  intro l2
  induction l2 with
  | nil =>
    intro l1 hp _ _
    exact hp.eq_nil
  | cons b t2 ih =>
    intro l1 hp hs1 hp2
    cases l1 with
    | nil => exact absurd hp.symm.eq_nil (List.cons_ne_nil b t2)
    | cons a t1 =>
      have hab : a = b := by
        have ha2 : a ∈ b :: t2 := hp.mem_iff.mp (List.mem_cons_self a t1)
        rcases List.mem_cons.mp ha2 with h | h
        · exact h
        · have hba : lexLt b a := (List.pairwise_cons.mp hp2).1 a h
          have hb1 : b ∈ a :: t1 := hp.symm.mem_iff.mp (List.mem_cons_self b t2)
          rcases List.mem_cons.mp hb1 with h2 | h2
          · exact h2.symm
          · have hab2 : lexLe a b := List.rel_of_sorted_cons hs1 b h2
            exact absurd (lexLt_lexLe_asymm hba hab2) not_false
      subst hab
      have hpt : t1.Perm t2 := hp.cons_inv
      rw [ih t1 hpt (List.sorted_cons.mp hs1).2 (List.pairwise_cons.mp hp2).2]

/-- The first 114 characters of the repository's `checks/uv.py`: the
72-character header shared verbatim by `uv.py`, `rigging.py`,
`modelling.py`, `renderLayers.py` and `shaders.py`, then the declaration of
its first check class, whose name therefore starts at offset 78. -/
def uvSrc : String :=
  "from maya import cmds\nfrom ..utils import QualityAssurance, reference\n\n\nclass EmptyUVSets(QualityAssurance):"

/-- The first characters of the repository's `checks/rigging.py`: the same
72-character header, then its first check class, also at offset 78. -/
def riggingSrc : String :=
  "from maya import cmds\nfrom ..utils import QualityAssurance, reference\n\n\nclass DeleteNonDeformerHistory(QualityAssurance):"

/-- The first check class of `uv.py` as the registry sees it. -/
def emptyUVSets : CheckClass := { name := "EmptyUVSets", modSource := uvSrc }

/-- The first check class of `rigging.py` as the registry sees it. -/
def deleteNonDeformerHistory : CheckClass :=
  { name := "DeleteNonDeformerHistory", modSource := riggingSrc }

/-- Counterexample to claim C8 as stated: `uv.py` and `rigging.py` begin
with a byte-identical 72-character header, so `EmptyUVSets` and
`DeleteNonDeformerHistory` both get sort key 78; the stable sort then keeps
the tied classes in `inspect.getmembers`' alphabetical order, so the
registry emits `DeleteNonDeformerHistory` before `EmptyUVSets` regardless
of their declaration/registration order (`uv.py` is imported before
`rigging.py` in `checks/__init__.py`): at ties the produced order is
exactly the alphabetical name order the claim excludes, not declaration
order. -/
theorem getChecks_declaration_cex :
    classKey emptyUVSets = 78 ∧ classKey deleteNonDeformerHistory = 78 ∧
      getChecks [emptyUVSets, deleteNonDeformerHistory]
        = [deleteNonDeformerHistory, emptyUVSets] ∧
      getChecks [emptyUVSets, deleteNonDeformerHistory]
        ≠ [emptyUVSets, deleteNonDeformerHistory] := by
  decide

/-- Claim C8 as amended: the registry's sequence is determined by the
roster alone — for every enumeration order `members` the reflection
facility may produce, `getChecks` returns the one list `decl` — hence it is
identical across repeated calls within one process lifetime; and that
order is ascending first-occurrence position of each class name in its
module's source (per-module declaration order), with position ties between
classes of different modules broken by ascending class name, i.e. the
alphabetical member order of the reflection facility. -/
theorem getChecks_stable_order (members decl : List CheckClass)
    (hperm : members.Perm decl) (hdecl : decl.Pairwise lexLt) :
    getChecks members = decl := by
  apply eq_of_perm_sorted_lex decl (getChecks members) ?_ ?_ hdecl
  · exact ((List.perm_insertionSort keyLe _).trans
      (List.perm_insertionSort nameLe members)).trans hperm
  · exact sorted_lex_insertionSort _ (List.sorted_insertionSort nameLe members)

/-- A two-class module source whose declaration order is the reverse of the
alphabetical order. -/
def w8src : String :=
  "class Zebra(QualityAssurance):x\nclass Alpha(QualityAssurance):x"

/-- The class declared first in `w8src`, name position 6. -/
def w8zebra : CheckClass := { name := "Zebra", modSource := w8src }

/-- The class declared second in `w8src`, name position 38. -/
def w8alpha : CheckClass := { name := "Alpha", modSource := w8src }

/-- Witness for the amended C8, mixing the repository's tied pair (both at
position 78, emitted in alphabetical order) with two position-separated
classes (6 and 38, emitted in position order even against alphabetical
order), from a scrambled enumeration. -/
theorem getChecks_stable_order_w :
    getChecks [emptyUVSets, w8alpha, deleteNonDeformerHistory, w8zebra]
      = [w8zebra, w8alpha, deleteNonDeformerHistory, emptyUVSets] :=
  getChecks_stable_order
    [emptyUVSets, w8alpha, deleteNonDeformerHistory, w8zebra]
    [w8zebra, w8alpha, deleteNonDeformerHistory, emptyUVSets]
    (by decide) (by decide)

/-! ### Collections: `collections/__init__.py` and `checks/__init__.py` -/

/-- The static `COLLECTION` configuration of `collections/__init__.py`:
an ordered mapping from collection name to ordered category-name list. -/
def COLLECTION : List (String × List String) :=
  [("animation", ["Animation", "Scene"]),
   ("modelling", ["Modelling", "Geometry", "UV", "Shaders", "Render Stats", "Scene"]),
   ("rigging", ["Rigging", "Skinning", "Shaders", "Render Stats", "Scene"]),
   ("look-dev", ["Shaders", "Textures", "UV", "Render Layers", "Render Stats", "Scene"])]

/-- `getCollections` of `collections/__init__.py`. -/
def getCollections : List (String × List String) := COLLECTION

/-- One `data[category].append(check)` / key-creation step of
`getChecksSplitByCategory`, on a dictionary modelled as an
insertion-ordered association list. -/
def addToCategory (data : List (String × List QualityAssurance)) (cat : String)
    (check : QualityAssurance) : List (String × List QualityAssurance) :=
  if data.any (fun p => p.1 == cat) then
    data.map (fun p => if p.1 == cat then (p.1, p.2 ++ [check]) else p)
  else
    data ++ [(cat, [check])]

/-- Projection of an `addToCategory` map step: the key is unchanged. -/
theorem addToCategory_step_fst (cat : String) (check : QualityAssurance)
    (p : String × List QualityAssurance) :
    (if p.1 == cat then (p.1, p.2 ++ [check]) else p).1 = p.1 := by
  by_cases hp : p.1 = cat <;> simp [hp]

/-- Embedding of `getChecksSplitByCategory`: group the registry's checks by
each category they declare, a check appearing once per category. -/
def getChecksSplitByCategory (checks : List QualityAssurance) :
    List (String × List QualityAssurance) :=
  checks.foldl
    (fun data check => check.categories.foldl (fun d cat => addToCategory d cat check) data)
    []

/-- Embedding of `getChecksCategories`: the keys of the category index. -/
def getChecksCategories (checks : List QualityAssurance) : List String :=
  (getChecksSplitByCategory checks).map Prod.fst

/-- One entry of the comprehension inside `getChecksFromCollection`:
`(category, data.get(category))` kept only `if data.get(category)` is
truthy (present and non-empty). -/
def resolveEntry (data : List (String × List QualityAssurance)) (category : String) :
    Option (String × List QualityAssurance) :=
  match List.lookup category data with
  | none => none
  | some rules => if rules.isEmpty then none else some (category, rules)

/-- `OrderedDict` insertion: an existing key keeps its position and takes
the new value, a new key is appended. -/
def odInsert {β : Type} (acc : List (String × β)) (k : String) (v : β) :
    List (String × β) :=
  if acc.any (fun p => p.1 == k) then
    acc.map (fun p => if p.1 == k then (k, v) else p)
  else
    acc ++ [(k, v)]

/-- `OrderedDict(pairs)`: fold the pairs into an empty ordered dict. -/
def odOfList {β : Type} (l : List (String × β)) : List (String × β) :=
  l.foldl (fun acc p => odInsert acc p.1 p.2) []

/-- Embedding of `getChecksFromCollection`: look the collection up in the
configured table (`COLLECTION` in the source; a falsy result — absent
collection name or empty category list — falls back to all of the index's
categories) and build the ordered category → checks view, skipping
categories with a falsy `data.get`. -/
def getChecksFromCollection (table : List (String × List String))
    (checks : List QualityAssurance) (collection : String) :
    List (String × List QualityAssurance) :=
  let data := getChecksSplitByCategory checks
  let categories0 := data.map Prod.fst
  let categories :=
    match List.lookup collection table with
    | none => categories0
    | some cats => if cats = [] then categories0 else cats
  odOfList (categories.filterMap (resolveEntry data))

/-- The dictionary invariant of the category index: keys are unique and
every stored check list is non-empty. -/
def CatInv (data : List (String × List QualityAssurance)) : Prop :=
  (data.map Prod.fst).Nodup ∧ ∀ p ∈ data, p.2 ≠ []

/-- A fold preserves any invariant its step preserves. -/
theorem foldl_preserve {α β : Type} (P : α → Prop) (f : α → β → α)
    (hf : ∀ a b, P a → P (f a b)) : ∀ (l : List β) (a : α), P a → P (l.foldl f a) := by
  intro l
  induction l with
  | nil => intro a ha; exact ha
  | cons b t ih => intro a ha; exact ih (f a b) (hf a b ha)

/-- `addToCategory` preserves the dictionary invariant. -/
theorem addToCategory_inv (data : List (String × List QualityAssurance))
    (cat : String) (check : QualityAssurance) (h : CatInv data) :
    CatInv (addToCategory data cat check) := by
  obtain ⟨hnd, hne⟩ := h
  unfold addToCategory
  by_cases hany : data.any (fun p => p.1 == cat) = true
  · rw [if_pos hany]
    constructor
    · have hkeys : (data.map (fun p => if p.1 == cat then (p.1, p.2 ++ [check]) else p)).map
          Prod.fst = data.map Prod.fst := by
        rw [List.map_map]
        apply List.map_congr_left
        intro p _
        exact addToCategory_step_fst cat check p
      rw [hkeys]; exact hnd
    · intro p hp
      obtain ⟨q, hq, hqp⟩ := List.mem_map.mp hp
      by_cases hq2 : (q.1 == cat) = true
      · rw [if_pos hq2] at hqp
        rw [← hqp]
        simp
      · rw [if_neg hq2] at hqp
        exact hqp ▸ hne q hq
  · rw [if_neg hany]
    have hnotin : cat ∉ data.map Prod.fst := by
      intro hmem
      obtain ⟨q, hq, hqc⟩ := List.mem_map.mp hmem
      apply hany
      exact List.any_eq_true.mpr ⟨q, hq, by simp [hqc]⟩
    constructor
    · simp only [List.map_append, List.map_cons, List.map_nil]
      rw [List.nodup_append]
      refine ⟨hnd, List.nodup_singleton cat, ?_⟩
      intro x hx hx2
      rw [List.mem_singleton] at hx2
      exact hnotin (hx2 ▸ hx)
    · intro p hp
      rcases List.mem_append.mp hp with h2 | h2
      · exact hne p h2
      · rcases List.mem_singleton.mp h2 with rfl
        simp

/-- The category index built by `getChecksSplitByCategory` satisfies the
dictionary invariant. -/
theorem getChecksSplitByCategory_inv (checks : List QualityAssurance) :
    CatInv (getChecksSplitByCategory checks) := by
  refine foldl_preserve CatInv _ ?_ checks [] ⟨List.nodup_nil, by simp⟩
  intro data check hd
  exact foldl_preserve CatInv _ (fun d cat h => addToCategory_inv d cat check h)
    check.categories data hd

/-- Looking up a key of a dictionary whose values all satisfy `P` yields a
value satisfying `P`. -/
theorem lookup_value_prop {β : Type} (P : β → Prop) :
    ∀ (data : List (String × β)) (c : String) (v : β),
      (∀ p ∈ data, P p.2) → List.lookup c data = some v → P v := by
  intro data
  induction data with
  | nil => intro c v _ h; simp [List.lookup] at h
  | cons q t ih =>
    intro c v hall h
    cases hc : (c == q.1) with
    | true =>
      simp only [List.lookup, hc] at h
      cases h
      exact hall q (List.mem_cons_self q t)
    | false =>
      simp only [List.lookup, hc] at h
      exact ih c v (fun p hp => hall p (List.mem_cons_of_mem q hp)) h

/-- With all values non-empty, the comprehension entry is just
`(category, data[category])` when the category is present. -/
theorem resolveEntry_eq (data : List (String × List QualityAssurance))
    (hne : ∀ p ∈ data, p.2 ≠ []) (c : String) :
    resolveEntry data c
      = (List.lookup c data).map (fun rules => (c, rules)) := by
  cases h : List.lookup c data with
  | none => simp [resolveEntry, h]
  | some rs =>
    have hrs : rs ≠ [] := lookup_value_prop (· ≠ []) data c rs hne h
    have hemp : rs.isEmpty = false := by
      cases rs with
      | nil => exact absurd rfl hrs
      | cons x t => rfl
    simp [resolveEntry, h, hemp]

/-- The keys of a `(c, f c)`-shaped `filterMap` form a subsequence of the
scanned key list. -/
theorem filterMap_keyed_fst_sublist {β : Type} (opt : String → Option β) :
    ∀ cs : List String,
      ((cs.filterMap (fun c => (opt c).map (fun v => (c, v)))).map Prod.fst).Sublist cs := by
  intro cs
  induction cs with
  | nil => simp
  | cons c t ih =>
    cases h : opt c with
    | none =>
      have hstep : (c :: t).filterMap (fun c => (opt c).map (fun v => (c, v)))
          = t.filterMap (fun c => (opt c).map (fun v => (c, v))) := by
        simp [List.filterMap_cons, h]
      rw [hstep]
      exact ih.cons c
    | some v =>
      have hstep : (c :: t).filterMap (fun c => (opt c).map (fun v => (c, v)))
          = (c, v) :: t.filterMap (fun c => (opt c).map (fun v => (c, v))) := by
        simp [List.filterMap_cons, h]
      rw [hstep, List.map_cons]
      exact ih.cons₂ c

/-- Folding pairs with fresh keys into an ordered dict appends them all. -/
theorem odOfList_go {β : Type} :
    ∀ (l acc : List (String × β)), (((acc ++ l).map Prod.fst).Nodup) →
      l.foldl (fun a p => odInsert a p.1 p.2) acc = acc ++ l := by
  intro l
  induction l with
  | nil => intro acc _; simp
  | cons q t ih =>
    intro acc hnd
    have hnd2 : (acc.map Prod.fst ++ q.1 :: t.map Prod.fst).Nodup := by
      simpa using hnd
    have hq : q.1 ∉ acc.map Prod.fst := by
      intro hmem
      exact (List.nodup_append.mp hnd2).2.2 hmem (List.mem_cons_self _ _)
    have hany : acc.any (fun p => p.1 == q.1) = false := by
      rw [Bool.eq_false_iff]
      intro h2
      obtain ⟨p, hp, hpq⟩ := List.any_eq_true.mp h2
      exact hq (List.mem_map.mpr ⟨p, hp, by simpa using hpq⟩)
    have hstep : odInsert acc q.1 q.2 = acc ++ [q] := by
      unfold odInsert
      rw [if_neg (by simp [hany])]
    simp only [List.foldl_cons, hstep]
    rw [ih (acc ++ [q]) (by simpa using hnd), List.append_assoc]
    simp

/-- An association list with unique keys is its own ordered dict. -/
theorem odOfList_id {β : Type} (l : List (String × β))
    (hnd : (l.map Prod.fst).Nodup) : odOfList l = l := by
  have := odOfList_go l [] (by simpa using hnd)
  simpa [odOfList] using this

/-- Mapping each distinct key of an association list to its own lookup
reproduces the list. -/
theorem filterMap_lookup_self {β : Type} :
    ∀ data : List (String × β), (data.map Prod.fst).Nodup →
      (data.map Prod.fst).filterMap
        (fun c => (List.lookup c data).map (fun v => (c, v))) = data := by
  intro data
  induction data with
  | nil => simp
  | cons q t ih =>
    intro hnd
    have hnd2 : (q.1 :: t.map Prod.fst).Nodup := by simpa using hnd
    have hq : q.1 ∉ t.map Prod.fst := (List.nodup_cons.mp hnd2).1
    have hndt : (t.map Prod.fst).Nodup := (List.nodup_cons.mp hnd2).2
    simp only [List.map_cons, List.filterMap_cons]
    have hhead : List.lookup q.1 (q :: t) = some q.2 := by
      simp [List.lookup]
    rw [hhead]
    have htail : (t.map Prod.fst).filterMap
        (fun c => (List.lookup c (q :: t)).map (fun v => (c, v)))
        = (t.map Prod.fst).filterMap
          (fun c => (List.lookup c t).map (fun v => (c, v))) := by
      apply List.filterMap_congr
      intro c hc
      have hcq : (c == q.1) = false := by
        rw [beq_eq_false_iff_ne]
        intro h2
        exact hq (h2 ▸ hc)
      simp only [List.lookup, hcq]
    rw [htail, ih hndt]
    simp

/-- Claim C7: resolving a collection name whose declared category list is
non-empty and duplicate-free returns, in the declared order, exactly those
declared categories that exist in the category index, each paired with its
check list, excluding index categories absent from the declaration; for a
collection name not in the table it falls back to the whole category index
in the index's own order, without raising. -/
theorem collection_resolution (table : List (String × List String))
    (checks : List QualityAssurance) (collection : String) :
    (∀ cats, List.lookup collection table = some cats → cats ≠ [] → cats.Nodup →
      getChecksFromCollection table checks collection
        = cats.filterMap (fun c =>
            (List.lookup c (getChecksSplitByCategory checks)).map (fun rules => (c, rules))))
    ∧ (List.lookup collection table = none →
      getChecksFromCollection table checks collection = getChecksSplitByCategory checks) := by
  obtain ⟨hnd, hne⟩ := getChecksSplitByCategory_inv checks
  constructor
  · intro cats hlook hcne hcnd
    unfold getChecksFromCollection
    rw [hlook]
    simp only [if_neg hcne]
    have hentry : cats.filterMap (resolveEntry (getChecksSplitByCategory checks))
        = cats.filterMap (fun c =>
            (List.lookup c (getChecksSplitByCategory checks)).map (fun rules => (c, rules))) :=
      List.filterMap_congr (fun c _ => resolveEntry_eq _ hne c)
    rw [hentry]
    exact odOfList_id _ ((filterMap_keyed_fst_sublist _ cats).nodup hcnd)
  · intro hlook
    have hentry : ((getChecksSplitByCategory checks).map Prod.fst).filterMap
        (resolveEntry (getChecksSplitByCategory checks))
        = getChecksSplitByCategory checks := by
      rw [List.filterMap_congr (fun c _ => resolveEntry_eq _ hne c)]
      exact filterMap_lookup_self _ hnd
    unfold getChecksFromCollection
    rw [hlook]
    show odOfList (((getChecksSplitByCategory checks).map Prod.fst).filterMap
      (resolveEntry (getChecksSplitByCategory checks))) = getChecksSplitByCategory checks
    rw [hentry]
    exact odOfList_id _ hnd

/-- The three single-category rules of the spec's collection-resolution
example. -/
def w7r1 : QualityAssurance := { name := "r1", categories := ["Rigging"] }

/-- Second example rule. -/
def w7r2 : QualityAssurance := { name := "r2", categories := ["Skinning"] }

/-- Third example rule, in a category the example collection excludes. -/
def w7r3 : QualityAssurance := { name := "r3", categories := ["Geometry"] }

/-- The example collection table `{"rigging": ["Rigging", "Skinning"]}`. -/
def w7table : List (String × List String) := [("rigging", ["Rigging", "Skinning"])]

/-- Witness for C7, on the spec's own example: `resolve("rigging")` keeps
`Rigging` and `Skinning` in that order and excludes `Geometry`, and an
unknown collection name falls back to the full category index. -/
theorem collection_resolution_w :
    getChecksFromCollection w7table [w7r1, w7r2, w7r3] "rigging"
        = [("Rigging", [w7r1]), ("Skinning", [w7r2])] ∧
      getChecksFromCollection w7table [w7r1, w7r2, w7r3] "unknown"
        = getChecksSplitByCategory [w7r1, w7r2, w7r3] := by
  constructor
  · rw [(collection_resolution w7table [w7r1, w7r2, w7r3] "rigging").1
      ["Rigging", "Skinning"] rfl (by decide) (by decide)]
    rfl
  · exact (collection_resolution w7table [w7r1, w7r2, w7r3] "unknown").2 rfl

end MayaQA
